import Mathlib

/-!
Shallow embedding of the Ren'Py translation rewriter (`scripts/rptl.py`):
the percent normalisation, the two translation regex patterns, the per-entry
edit logic, the chunked file reader, and the orchestration of a run.
Text is modelled as `List Char`; Python string/regex primitives are
reimplemented faithfully for the exact patterns used by the source.
-/

namespace Rptl

/-- Text is modelled as a list of characters. -/
abbrev Text := List Char

/-- The ASCII whitespace characters of Python's `str.strip()` and of the regex
class `\s` (the inputs considered here are ASCII). -/
def pyIsSpace (c : Char) : Bool :=
  c == ' ' || c == '\t' || c == '\n' || c == '\r' || c == '\x0b' || c == '\x0c'

/-- Python regex `\w` (ASCII part): letters, digits, underscore. -/
def isWordChar (c : Char) : Bool := c.isAlphanum || c == '_'

/-- Python `str.strip(chars)`: remove leading and trailing characters
satisfying `p`. -/
def stripWhile (p : Char → Bool) (s : Text) : Text :=
  ((s.dropWhile p).reverse.dropWhile p).reverse

/-- `str.strip()` (no argument): strip whitespace from both ends. -/
def pyStrip (s : Text) : Text := stripWhile pyIsSpace s

/-- `str.strip('.')`. -/
def stripDots (s : Text) : Text := stripWhile (fun c => c == '.') s

/-- `str.strip('[]')`. -/
def stripBrackets (s : Text) : Text := stripWhile (fun c => c == '[' || c == ']') s

/-- `PERCENT = re.compile(r'(?<!%)(%)(?!%)')`, used as `PERCENT.sub(r'%%', dst)`:
every percent sign whose neighbours in the original string are not percent
signs is doubled.  `prev` is the character just before the current suffix in
the original string (the look-behind). -/
def percentSubAux (prev : Option Char) : Text → Text
  | [] => []
  | c :: rest =>
    if c == '%' && prev != some '%' && rest.head? != some '%' then
      '%' :: '%' :: percentSubAux (some c) rest
    else
      c :: percentSubAux (some c) rest

/-- `PERCENT.sub(r'%%', s)`. -/
def percentSub (s : Text) : Text := percentSubAux none s

/-- One scanning pass of Python `str.replace` for a nonempty pattern:
replace every non-overlapping occurrence, left to right.  Structured on fuel
so the definition reduces inside the kernel; `fuel = s.length` suffices since
every step consumes at least one character. -/
def pyReplaceF (pat rep : Text) : Nat → Text → Text
  | _, [] => []
  | 0, s => s
  | fuel + 1, c :: s =>
    if pat.isPrefixOf (c :: s) then
      rep ++ pyReplaceF pat rep fuel ((c :: s).drop pat.length)
    else
      c :: pyReplaceF pat rep fuel s

/-- Python `str.replace(pat, rep)` (all occurrences).  An empty pattern
inserts `rep` at every boundary, as in Python. -/
def pyReplace (s pat rep : Text) : Text :=
  if pat.isEmpty then rep ++ s.flatMap (fun c => c :: rep)
  else pyReplaceF pat rep s.length s

/-- Whether `pat` occurs as a contiguous substring of `s`. -/
def hasOccur (pat s : Text) : Bool :=
  (List.range (s.length + 1)).any (fun i => pat.isPrefixOf (s.drop i))

/-- A raw regex match of one of the two translation patterns: the whole match
(group 0) and the `head`, `src`, `dst` captures, before any normalisation. -/
structure RawMatch where
  full : Text
  head : Text
  src : Text
  dst : Text
  deriving DecidableEq, Repr

/-- `TranslationMatch` after `__post_init__`, which replaces `dst` with
`PERCENT.sub(r'%%', dst)`. -/
structure TranslationMatch where
  full : Text
  head : Text
  src : Text
  dst : Text
  deriving DecidableEq, Repr

/-- Construction of a `TranslationMatch` from a raw match
(`__post_init__` normalises the percent signs of `dst`). -/
def mkTranslationMatch (m : RawMatch) : TranslationMatch :=
  ⟨m.full, m.head, m.src, percentSub m.dst⟩

/-- First successful application of `f` along a list (the backtracking choice
points of a regex, tried in order). -/
def firstSome {α β : Type} (f : α → Option β) : List α → Option β
  | [] => none
  | a :: as =>
    match f a with
    | some b => some b
    | none => firstSome f as

/-- Backtracking match, at the start of `s`, of the first translation pattern
`(?P<head>old \"(?P<src>.*)\"(\s+)new )\"(?P<dst>.*)\"`.
`.*` does not cross a newline and is greedy, so the closing-quote candidates
for `src` are tried rightmost first; `(\s+)` is the maximal whitespace run
(a shorter run would leave a whitespace character where the literal `new `
must match); `dst` runs to the last quote of its line.  Returns the match and
the suffix after it. -/
def matchP1 (s : Text) : Option (RawMatch × Text) :=
  if ("old \"".toList).isPrefixOf s then
    let s1 := s.drop 5
    let line1 := s1.takeWhile (fun c => c != '\n')
    let cands := ((List.range line1.length).filter (fun j => line1.get? j == some '"')).reverse
    firstSome (fun j =>
      let src := line1.take j
      let after := s1.drop (j + 1)
      let ws := after.takeWhile pyIsSpace
      if ws.isEmpty then none
      else
        let rest1 := after.drop ws.length
        if ("new \"".toList).isPrefixOf rest1 then
          let s2 := rest1.drop 5
          let line2 := s2.takeWhile (fun c => c != '\n')
          match ((List.range line2.length).filter (fun k => line2.get? k == some '"')).reverse with
          | [] => none
          | k :: _ =>
            let dst := line2.take k
            let head := ("old \"".toList) ++ src ++ '"' :: (ws ++ ("new ".toList))
            some (⟨head ++ '"' :: (dst ++ ['"']), head, src, dst⟩, s2.drop (k + 1))
        else none) cands
  else none

/-- Backtracking match, at the start of `s`, of the second translation pattern
`(?P<head># (?P<char>[\w_]*)\s*\"(?P<src>.*)\"(\s+)(?P=char) )\"(?P<dst>.*)\"`.
`char` and `\s*` are maximal runs (their character classes are disjoint from
what must follow).  After `src`'s closing quote, `(\s+)` is a maximal
whitespace run followed by the back-reference and a literal space; when
`char` is empty the literal space must be the last character of the run
itself (the engine backs up one step). -/
def matchP2 (s : Text) : Option (RawMatch × Text) :=
  if ("# ".toList).isPrefixOf s then
    let s0 := s.drop 2
    let ch := s0.takeWhile isWordChar
    let s1a := s0.drop ch.length
    let ws0 := s1a.takeWhile pyIsSpace
    let s1b := s1a.drop ws0.length
    if s1b.head? == some '"' then
      let s1 := s1b.drop 1
      let line1 := s1.takeWhile (fun c => c != '\n')
      let cands := ((List.range line1.length).filter (fun j => line1.get? j == some '"')).reverse
      firstSome (fun j =>
        let src := line1.take j
        let after := s1.drop (j + 1)
        let ws := after.takeWhile pyIsSpace
        let cont : Option (Text × Text) :=
          if ch.isEmpty then
            if decide (2 ≤ ws.length) && ws.getLast? == some ' ' then
              some (ws, after.drop ws.length)
            else none
          else
            if ws.isEmpty then none
            else
              let rest1 := after.drop ws.length
              if (ch ++ [' ']).isPrefixOf rest1 then
                some (ws ++ ch ++ [' '], rest1.drop (ch.length + 1))
              else none
        match cont with
        | none => none
        | some (mid, rest2) =>
          if rest2.head? == some '"' then
            let s2 := rest2.drop 1
            let line2 := s2.takeWhile (fun c => c != '\n')
            match ((List.range line2.length).filter (fun k => line2.get? k == some '"')).reverse with
            | [] => none
            | k :: _ =>
              let dst := line2.take k
              let head := ("# ".toList) ++ ch ++ ws0 ++ '"' :: (src ++ '"' :: mid)
              some (⟨head ++ '"' :: (dst ++ ['"']), head, src, dst⟩, s2.drop (k + 1))
          else none) cands
    else none
  else none

/-- `re.finditer`: leftmost matches, scanning resumes after each match.  Fuel
bounds the number of scanning steps; `s.length + 1` suffices because every
step either advances one character or consumes a nonempty match. -/
def finditerF (pm : Text → Option (RawMatch × Text)) : Nat → Text → List RawMatch
  | 0, _ => []
  | fuel + 1, s =>
    match pm s with
    | some (m, rest) => m :: finditerF pm fuel rest
    | none =>
      match s with
      | [] => []
      | _ :: tail => finditerF pm fuel tail

/-- `re.finditer` of a pattern over `s`. -/
def finditer (pm : Text → Option (RawMatch × Text)) (s : Text) : List RawMatch :=
  finditerF pm (s.length + 1) s

/-- `Pattern.iter_tl`: all matches of the first pattern, then all matches of
the second (`chain.from_iterable`), each one wrapped into a
`TranslationMatch` (normalising `dst`). -/
def iterTl (s : Text) : List TranslationMatch :=
  (finditer matchP1 s ++ finditer matchP2 s).map mkTranslationMatch

/-- The configuration one edit depends on: the character roster
(`RenpyTranslation.characters`), the preserved words, and the linebreak
threshold. -/
structure Env where
  characters : List Text
  preserveWords : List Text
  linebreakThreshold : Nat

/-- `re.match(r'^\[.*\]$', src)`: `src` is wrapped in one bracket pair;
`.*` crosses no newline and `$` also matches just before one trailing
newline. -/
def bracketForm (s : Text) : Bool :=
  let core := if s.getLast? == some '\n' then s.dropLast else s
  decide (2 ≤ core.length) && core.head? == some '[' && core.getLast? == some ']'
    && !(core.contains '\n')

/-- The normalised source of the long-string branch:
`m.src.replace('{w}', '').replace('{p}', ' / ')`. -/
def normalizeSrc (src : Text) : Text :=
  pyReplace (pyReplace src ("{w}".toList) []) ("{p}".toList) (" / ".toList)

/-- `RenpyTranslation._edit_side_by_side`. -/
def editSideBySide (env : Env) (text : Text) (m : TranslationMatch) : Option Text :=
  if env.characters.contains (stripBrackets m.src) then
    if bracketForm m.src then
      some (pyReplace text m.full (m.head ++ '"' :: (m.src ++ ['"'])))
    else
      some (pyReplace text m.full
        (m.head ++ '"' :: (m.src ++ (" (".toList) ++ m.dst ++ (")\"".toList))))
  else if m.src.length ≤ env.linebreakThreshold then
    some (pyReplace text m.full
      (m.head ++ '"' :: (m.src ++ ("  |  ".toList) ++ m.dst ++ ['"'])))
  else
    let src := normalizeSrc m.src
    if !(src.isPrefixOf m.dst) then
      some (pyReplace text m.full
        (m.head ++ '"' :: (src ++ '\\' :: 'n' :: (m.dst ++ ['"']))))
    else
      none

/-- The no-op guard of `RenpyTranslation._edit`. -/
def editGuard (m : TranslationMatch) : Bool :=
  m.src.isPrefixOf m.dst
    || (("old:".toList).isPrefixOf m.src && ("new:".toList).isPrefixOf m.dst)

/-- `RenpyTranslation._edit`. -/
def edit (env : Env) (text : Text) (m : TranslationMatch) (preserve : Bool) : Option Text :=
  if editGuard m then none
  else if preserve || env.preserveWords.contains (stripDots (pyStrip m.src)) then
    some (pyReplace text m.full (m.head ++ '"' :: (m.src ++ ['"'])))
  else
    editSideBySide env text m

/-- The loop body of `RenpyTranslation._rpy`: `if t := self._edit(...): text = t`
(a `None` or empty-string result is falsy and leaves the text unchanged). -/
def applyEdit (env : Env) (preserve : Bool) (text : Text) (m : TranslationMatch) : Text :=
  match edit env text m preserve with
  | none => text
  | some t => if t.isEmpty then text else t

/-- `RenpyTranslation._rpy`: the matches are produced from the chunk as it was
passed in (the generators iterate the original string), and each edit
rewrites the running text. -/
def rpyChunk (env : Env) (preserve : Bool) (text : Text) : Text :=
  (iterTl text).foldl (applyEdit env preserve) text

/-- Split text into lines keeping the newline terminators, as Python file
iteration does. -/
def linesWithEndAux (acc : Text) : Text → List Text
  | [] => if acc.isEmpty then [] else [acc.reverse]
  | c :: cs =>
    if c == '\n' then (c :: acc).reverse :: linesWithEndAux [] cs
    else linesWithEndAux (c :: acc) cs

/-- The file's lines, newline terminators included. -/
def linesWithEnd (t : Text) : List Text := linesWithEndAux [] t

/-- `RpyReader.iter_chunk`: accumulate lines, yield a block after every blank
line (the blank line included), and always yield a final (possibly empty)
block. -/
def iterChunkAux (acc : List Text) : List Text → List (List Text)
  | [] => [acc.reverse]
  | l :: ls =>
    if l.all pyIsSpace then ((l :: acc).reverse) :: iterChunkAux [] ls
    else iterChunkAux (l :: acc) ls

/-- `RpyReader.iter_chunk` on a list of lines. -/
def iterChunk (ls : List Text) : List (List Text) := iterChunkAux [] ls

/-- `itertools.batched(·, n)` for `n ≥ 1`: groups of `n` consecutive
elements, the last possibly shorter.  Fuel-structured; `l.length` steps
suffice. -/
def chunksOfF {α : Type} (n : Nat) : Nat → List α → List (List α)
  | _, [] => []
  | 0, l => [l]
  | fuel + 1, x :: xs => (x :: xs.take (n - 1)) :: chunksOfF n fuel (xs.drop (n - 1))

/-- `itertools.batched(l, n)`. -/
def chunksOf {α : Type} (n : Nat) (l : List α) : List (List α) := chunksOfF n l.length l

/-- `RpyReader.__iter__`: join each batch of blocks into one chunk string. -/
def readerChunks (n : Nat) (t : Text) : List Text :=
  (chunksOf n (iterChunk (linesWithEnd t))).map (fun batch => batch.flatten.flatten)

/-- `RenpyTranslation.rpy` on the text of one file: rewrite every chunk and
concatenate the results. -/
def rpyFileText (env : Env) (preserve : Bool) (n : Nat) (t : Text) : Text :=
  ((readerChunks n t).map (rpyChunk env preserve)).flatten

/-- `PRESERVE_FILES`. -/
def PRESERVE_FILES : List Text := [("gui".toList), ("screens".toList)]

/-- `PRESERVE_WORDS`. -/
def PRESERVE_WORDS : List Text :=
  [("About".toList), ("After Choices".toList), ("Auto".toList), ("Back".toList),
   ("Disable".toList), ("Display".toList), ("Enter".toList), ("Escape".toList),
   ("Fullscreen".toList), ("Help".toList), ("History".toList), ("Load".toList),
   ("Main Menu".toList), ("Menu".toList), ("No".toList), ("Preference".toList),
   ("Preferences".toList), ("Prefs".toList), ("Q.Load".toList), ("Q.Save".toList),
   ("Quit".toList), ("Return".toList), ("Rollback Side".toList), ("Save".toList),
   ("Skip".toList), ("Space".toList), ("Start".toList), ("Tab".toList),
   ("Transitions".toList), ("Unseen Text".toList), ("Window".toList), ("Yes".toList)]

/-- The group-1 capture of `r'.*Character\(\"(.+?)\".*'` matched against one
line: the greedy leading `.*` selects the rightmost occurrence of
`Character(\"` on the line that can be followed by the lazy `(.+?)` — the
shortest nonempty run up to a closing quote. -/
def charLineName (line : Text) : Option Text :=
  let pat := ("Character(\"".toList)
  let occs := ((List.range (line.length + 1)).filter
    (fun i => pat.isPrefixOf (line.drop i))).reverse
  firstSome (fun i =>
    let rem := line.drop (i + pat.length)
    match (List.range rem.length).filter
        (fun j => decide (1 ≤ j) && rem.get? j == some '"') with
    | [] => none
    | j :: _ => some (rem.take j)) occs

/-- `RenpyTranslation.characters`: the set of group-1 captures of the
character pattern over the configured script text (one finditer match per
line that contains a declaration). -/
def charsOf (t : Text) : List Text :=
  (linesWithEnd t).filterMap (fun l => charLineName (l.takeWhile (fun c => c != '\n')))

/-- `RenpyTranslation._edit` with the lazy `self.characters` access made
explicit: the roster is only demanded when control reaches
`_edit_side_by_side`; `none` stands for a configured but missing character
script, in which case that access raises `FileNotFoundError`. -/
def editE (charsOpt : Option (List Text)) (words : List Text) (threshold : Nat)
    (text : Text) (m : TranslationMatch) (preserve : Bool) : Except Unit (Option Text) :=
  if editGuard m then .ok none
  else if preserve || words.contains (stripDots (pyStrip m.src)) then
    .ok (some (pyReplace text m.full (m.head ++ '"' :: (m.src ++ ['"']))))
  else
    match charsOpt with
    | none => .error ()
    | some chars => .ok (editSideBySide ⟨chars, words, threshold⟩ text m)

/-- The edit loop of `RenpyTranslation._rpy` with the lazy roster access. -/
def applyEditsE (charsOpt : Option (List Text)) (words : List Text) (threshold : Nat)
    (preserve : Bool) (text : Text) : List TranslationMatch → Except Unit Text
  | [] => .ok text
  | m :: ms =>
    match editE charsOpt words threshold text m preserve with
    | .error e => .error e
    | .ok none => applyEditsE charsOpt words threshold preserve text ms
    | .ok (some t) =>
      applyEditsE charsOpt words threshold preserve (if t.isEmpty then text else t) ms

/-- `RenpyTranslation._rpy` with the lazy roster access. -/
def rpyChunkE (charsOpt : Option (List Text)) (words : List Text) (threshold : Nat)
    (preserve : Bool) (text : Text) : Except Unit Text :=
  applyEditsE charsOpt words threshold preserve text (iterTl text)

/-- `RenpyTranslation.rpy` with the lazy roster access. -/
def rpyFileTextE (charsOpt : Option (List Text)) (words : List Text) (threshold : Nat)
    (preserve : Bool) (n : Nat) (t : Text) : Except Unit Text :=
  ((readerChunks n t).mapM (rpyChunkE charsOpt words threshold preserve)).map List.flatten

/-- The state a run (`RenpyTranslation.__call__`) starts from.  Paths are
abstracted: translation files are keyed by their stem; `rpycs` lists the
stems whose compiled-cache sibling exists; `charConfigured` is whether
`paths.characters or paths.script` is set, and `charScript` is that file's
content (`none` when the file is absent). -/
structure RunInput where
  charConfigured : Bool
  charScript : Option Text
  rpys : List (Text × Text)
  rpycs : List Text
  backupConfigured : Bool
  backupZipExists : Bool
  devMode : Bool
  devExists : Bool
  batchSize : Nat
  threshold : Nat
  preserveFiles : List Text
  preserveWords : List Text

/-- Externally visible actions of a run, in order. -/
inductive Ev where
  | backup
  | write (stem : Text)
  | unlinkCache (stem : Text)
  | dev
  deriving DecidableEq, Repr

/-- The two `FileNotFoundError` conditions a run can raise. -/
inductive RunErr where
  | charScriptNotFound
  | languageEmpty
  deriving DecidableEq, Repr

/-- The outcome of (part of) a run: events in order, the error that aborted
it (if any), the final translation files and the surviving cache files. -/
structure RunOut where
  evs : List Ev
  err : Option RunErr
  rpys : List (Text × Text)
  rpycs : List Text
  deriving DecidableEq, Repr

/-- The per-file loop of `RenpyTranslation.__call__`: rewrite, compare with
the current content, write back and unlink the cache sibling only when the
text changed; a missing character script aborts the loop at the file whose
rewrite first demands the roster. -/
def runLoop (charsOpt : Option (List Text)) (words : List Text) (threshold : Nat)
    (pfiles : List Text) (n : Nat) :
    List (Text × Text) → List Text → RunOut
  | [], rpycs => ⟨[], none, [], rpycs⟩
  | (s, t) :: rest, rpycs =>
    match rpyFileTextE charsOpt words threshold (pfiles.contains s) n t with
    | .error _ => ⟨[], some .charScriptNotFound, (s, t) :: rest, rpycs⟩
    | .ok t' =>
      if t' = t then
        let out := runLoop charsOpt words threshold pfiles n rest rpycs
        ⟨out.evs, out.err, (s, t) :: out.rpys, out.rpycs⟩
      else
        let out := runLoop charsOpt words threshold pfiles n rest
          (rpycs.filter (fun c => c != s))
        ⟨Ev.write s :: Ev.unlinkCache s :: out.evs, out.err, (s, t') :: out.rpys, out.rpycs⟩

/-- The backup step of `RenpyTranslation.__call__`: archive only when a
backup name is configured and the zip does not already exist. -/
def backupEvs (inp : RunInput) : List Ev :=
  if inp.backupConfigured && !inp.backupZipExists then [Ev.backup] else []

/-- The character roster demanded lazily by the rewrite loop: `some []` when
no script is configured (`characters` returns the empty set), `none` when the
configured file is missing (its first access raises), otherwise the parsed
roster. -/
def charsOptOf (inp : RunInput) : Option (List Text) :=
  if inp.charConfigured then inp.charScript.map charsOf else some []

/-- The dev-mode step: write the snippet only when enabled and absent. -/
def devEvs (inp : RunInput) : List Ev :=
  if inp.devMode && !inp.devExists then [Ev.dev] else []

/-- The per-file loop of a run, with the run's configuration filled in. -/
def theLoop (inp : RunInput) : RunOut :=
  runLoop (charsOptOf inp) inp.preserveWords inp.threshold inp.preserveFiles
    inp.batchSize inp.rpys inp.rpycs

/-- `RenpyTranslation.__call__`: back up first (when configured and the
archive does not yet exist), then fail if there are no translation files,
then run the per-file loop, then (unless it aborted) write the dev-mode file
when enabled and absent. -/
def runModel (inp : RunInput) : RunOut :=
  if inp.rpys.isEmpty then
    ⟨backupEvs inp, some .languageEmpty, inp.rpys, inp.rpycs⟩
  else
    match (theLoop inp).err with
    | some e => ⟨backupEvs inp ++ (theLoop inp).evs, some e, (theLoop inp).rpys,
        (theLoop inp).rpycs⟩
    | none =>
      ⟨backupEvs inp ++ (theLoop inp).evs ++ devEvs inp, none, (theLoop inp).rpys,
        (theLoop inp).rpycs⟩

/-- The environment of a run with the default configuration
(`linebreak_threshold = 12`, the default preserved words) and a character
script declaring no characters. -/
def defaultEnvNoChars : Env := ⟨[], PRESERVE_WORDS, 12⟩

/-- A translation file whose source text contains an isolated percent sign. -/
def c1Input : Text := ("old \"a%b\"\nnew \"x\"\n").toList

/-- `c1Input` after one application of the per-file rewrite. -/
def c1Once : Text := ("old \"a%b\"\nnew \"a%b  |  x\"\n").toList

/-- `c1Once` after another application of the per-file rewrite. -/
def c1Twice : Text := ("old \"a%b\"\nnew \"a%b  |  a%%b  |  x\"\n").toList

/-- A chunk in which the identical full-match text occurs twice. -/
def c2Text : Text :=
  ("old \"s\"\nnew \"x\"\n\nold \"s\"\nnew \"x\"\n").toList

/-- The first translation match of `c2Text`. -/
def c2M : TranslationMatch :=
  ⟨("old \"s\"\nnew \"x\"").toList, ("old \"s\"\nnew ").toList, ("s").toList, ("x").toList⟩

/-- `c2Text` with both occurrences of the full match replaced. -/
def c2Both : Text :=
  ("old \"s\"\nnew \"s  |  x\"\n\nold \"s\"\nnew \"s  |  x\"\n").toList

/-- `c2Text` with only the first occurrence of the full match replaced. -/
def c2FirstOnly : Text :=
  ("old \"s\"\nnew \"s  |  x\"\n\nold \"s\"\nnew \"x\"\n").toList

/-- An entry whose translated text as written in the file starts with the
source text, while the source contains an isolated percent sign. -/
def c3Input : Text := ("old \"a%b\"\nnew \"a%bc\"\n").toList

/-- A file in which an `old`/`new` entry spans a blank line (matched via
`(\s+)`), so batching can fracture it. -/
def c4Input : Text := ("old \"a\"\n\nnew \"b\"\n").toList

/-- A preserved-file entry the no-op guard catches before the preservation
guard: the translated text starts with the source text but carries extra
text. -/
def c6Input : Text := ("old \"s1\"\nnew \"s1X\"\n").toList

/-- A long entry (source length 14 > threshold 12) whose translated text
starts with the raw source but not with the control-token-normalised
source. -/
def c7Input : Text :=
  ("old \"" ++ "\x7bp\x7dabcdefghijk" ++ "\"\nnew \"" ++ "\x7bp\x7dabcdefghijkZ" ++ "\"\n").toList

/-- The (sole) translation match of `c7Input`. -/
def c7M : TranslationMatch :=
  ⟨("old \"" ++ "\x7bp\x7dabcdefghijk" ++ "\"\nnew \"" ++ "\x7bp\x7dabcdefghijkZ" ++ "\"").toList,
   ("old \"" ++ "\x7bp\x7dabcdefghijk" ++ "\"\nnew ").toList,
   ("\x7bp\x7dabcdefghijk").toList,
   ("\x7bp\x7dabcdefghijkZ").toList⟩

/-- A run input: character script configured but absent, one ordinary
translation file that needs the roster, backup configured and not yet
archived. -/
def c8InputA : RunInput :=
  ⟨true, none, [(("scenario").toList, ("old \"s1\"\nnew \"x\"\n").toList)], [],
   true, false, true, false, 100, 12, PRESERVE_FILES, PRESERVE_WORDS⟩

/-- A run input like `c8InputA` but with a preserved file first: `gui.rpy` is
rewritten (never touching the roster) before the missing character script is
noticed while processing `scenario.rpy`. -/
def c8InputB : RunInput :=
  ⟨true, none,
   [(("gui").toList, ("old \"s1\"\nnew \"x\"\n").toList),
    (("scenario").toList, ("old \"s1\"\nnew \"x\"\n").toList)],
   [("gui").toList], true, false, true, false, 100, 12, PRESERVE_FILES, PRESERVE_WORDS⟩

/-- Every percent sign of `s` is part of a doubled pair `%%` (runs of exactly
two): the reading of "percents already all doubled". -/
def allDoubled : Text → Bool
  | [] => true
  | [c] => c != '%'
  | c :: c2 :: rest2 =>
    if c == '%' then c2 == '%' && rest2.head? != some '%' && allDoubled rest2
    else allDoubled (c2 :: rest2)

theorem percentSubAux_cons (prev : Option Char) (c : Char) (rest : Text) :
    percentSubAux prev (c :: rest) =
      if c == '%' && prev != some '%' && rest.head? != some '%' then
        '%' :: '%' :: percentSubAux (some c) rest
      else c :: percentSubAux (some c) rest := rfl

theorem percentSubAux_of_not_mem {s : Text} (h : '%' ∉ s) :
    ∀ prev, percentSubAux prev s = s := by
  induction s with
  | nil => intro prev; rfl
  | cons c rest ih =>
    intro prev
    have hc : c ≠ '%' := fun e => h (by rw [e]; exact List.mem_cons_self _ _)
    rw [percentSubAux_cons, if_neg (by simp [hc]),
      ih (fun hm => h (List.mem_cons_of_mem c hm)) (some c)]

theorem percentSubAux_irrel {b : Text} (hb : b.head? ≠ some '%') (p q : Option Char) :
    percentSubAux p b = percentSubAux q b := by
  cases b with
  | nil => rfl
  | cons c rest =>
    have hc : c ≠ '%' := by
      simp only [List.head?_cons, ne_eq, Option.some.injEq] at hb
      exact hb
    rw [percentSubAux_cons, percentSubAux_cons, if_neg (by simp [hc]), if_neg (by simp [hc])]

theorem percentSubAux_append_isolated (a : Text) :
    ∀ (b : Text) (prev : Option Char), a.getLast? ≠ some '%' →
      (a = [] → prev ≠ some '%') → b.head? ≠ some '%' →
      percentSubAux prev (a ++ '%' :: b) =
        percentSubAux prev a ++ '%' :: '%' :: percentSubAux (some '%') b := by
  induction a with
  | nil =>
    intro b prev _ hprev hb
    rw [List.nil_append, percentSubAux_cons, if_pos (by simp [hprev rfl, hb])]
    rfl
  | cons c a' ih =>
    intro b prev ha hprev hb
    rw [List.cons_append, percentSubAux_cons, percentSubAux_cons]
    by_cases hc : c = '%'
    · subst hc
      have ha' : a' ≠ [] := by
        intro he
        subst he
        simp at ha
      have hlast : a'.getLast? ≠ some '%' := by
        cases a' with
        | nil => exact absurd rfl ha'
        | cons x xs => rw [List.getLast?_cons_cons] at ha; exact ha
      have hhead : (a' ++ '%' :: b).head? = a'.head? := by
        cases a' with
        | nil => exact absurd rfl ha'
        | cons x xs => rfl
      rw [hhead, ih b (some '%') hlast (fun he => absurd he ha') hb]
      by_cases hp : (('%' == '%' && prev != some '%' && a'.head? != some '%') = true)
      · rw [if_pos hp, if_pos hp]
        rfl
      · rw [if_neg hp, if_neg hp]
        rfl
    · have hlast : a'.getLast? ≠ some '%' := by
        cases a' with
        | nil => simp
        | cons x xs => rw [List.getLast?_cons_cons] at ha; exact ha
      have hprev' : a' = [] → some c ≠ some '%' := by
        intro _
        simp [hc]
      rw [if_neg (by simp [hc]), if_neg (by simp [hc]), ih b (some c) hlast hprev' hb]
      rfl

theorem percentSub_append_isolated {a b : Text} (ha : a.getLast? ≠ some '%')
    (hb : b.head? ≠ some '%') :
    percentSub (a ++ '%' :: b) = percentSub a ++ '%' :: '%' :: percentSub b := by
  unfold percentSub
  rw [percentSubAux_append_isolated a b none ha (fun _ => by simp) hb]
  rw [percentSubAux_irrel hb (some '%') none]

theorem percentSub_of_not_mem {s : Text} (h : '%' ∉ s) : percentSub s = s :=
  percentSubAux_of_not_mem h none

theorem percentSubAux_of_allDoubled (n : Nat) :
    ∀ (s : Text), s.length ≤ n → allDoubled s = true →
      ∀ prev, percentSubAux prev s = s := by
  induction n with
  | zero =>
    intro s hs _ prev
    rw [List.length_eq_zero.mp (Nat.le_zero.mp hs)]
    rfl
  | succ n ih =>
    intro s hs h prev
    match s with
    | [] => rfl
    | [c] =>
      have hc : c ≠ '%' := by simpa [allDoubled, bne_iff_ne] using h
      rw [percentSubAux_cons, if_neg (by simp [hc])]
      rfl
    | c :: c2 :: rest2 =>
      by_cases hc : c = '%'
      · subst hc
        have h' : (c2 = '%' ∧ rest2.head? ≠ some '%') ∧ allDoubled rest2 = true := by
          rw [allDoubled, if_pos (by simp)] at h
          simpa [Bool.and_eq_true, bne_iff_ne] using h
        have h' : c2 = '%' ∧ rest2.head? ≠ some '%' ∧ allDoubled rest2 = true :=
          ⟨h'.1.1, h'.1.2, h'.2⟩
        obtain ⟨hc2, _, hd⟩ := h'
        subst hc2
        rw [percentSubAux_cons, if_neg (by simp)]
        rw [percentSubAux_cons, if_neg (by simp)]
        have hr2 : rest2.length ≤ n := by
          simp only [List.length_cons] at hs
          omega
        rw [ih rest2 hr2 hd (some '%')]
      · rw [allDoubled, if_neg (by simp [hc])] at h
        rw [percentSubAux_cons, if_neg (by simp [hc])]
        have hr : (c2 :: rest2).length ≤ n := by
          simp only [List.length_cons] at hs ⊢
          omega
        rw [ih (c2 :: rest2) hr h (some c)]

theorem percentSub_of_allDoubled {s : Text} (h : allDoubled s = true) : percentSub s = s :=
  percentSubAux_of_allDoubled s.length s (Nat.le_refl _) h none

theorem pyReplaceF_fuel (pat rep : Text) (hp : pat ≠ []) (n : Nat) :
    ∀ (s : Text) (fuel : Nat), s.length ≤ n → s.length ≤ fuel →
      pyReplaceF pat rep fuel s = pyReplaceF pat rep s.length s := by
  induction n with
  | zero =>
    intro s fuel h1 _
    rw [List.length_eq_zero.mp (Nat.le_zero.mp h1)]
    cases fuel <;> rfl
  | succ n ih =>
    intro s fuel h1 h2
    match s with
    | [] => cases fuel <;> rfl
    | c :: srest =>
      match fuel, h2 with
      | f + 1, h2 =>
        have hsl : srest.length ≤ n := by
          simp only [List.length_cons] at h1
          omega
        have hsf : srest.length ≤ f := by
          simp only [List.length_cons] at h2
          omega
        have hpl : 1 ≤ pat.length := by
          cases pat with
          | nil => exact absurd rfl hp
          | cons _ _ => simp
        simp only [List.length_cons, pyReplaceF]
        by_cases hpre : pat.isPrefixOf (c :: srest) = true
        · rw [if_pos hpre, if_pos hpre]
          congr 1
          have hd : ((c :: srest).drop pat.length).length ≤ srest.length := by
            simp only [List.length_drop, List.length_cons]
            omega
          rw [ih _ f (le_trans hd hsl) (le_trans hd hsf),
            ih _ srest.length (le_trans hd hsl) hd]
        · rw [if_neg hpre, if_neg hpre, ih srest f hsl hsf]

theorem pyReplace_nil (pat rep : Text) (hp : pat ≠ []) : pyReplace [] pat rep = [] := by
  unfold pyReplace
  rw [if_neg (by simp [hp])]
  rfl

theorem pyReplace_cons_pos {pat : Text} (rep s : Text) (hp : pat ≠ [])
    (hpre : pat.isPrefixOf s = true) :
    pyReplace s pat rep = rep ++ pyReplace (s.drop pat.length) pat rep := by
  have hs : s ≠ [] := by
    intro he
    subst he
    cases pat with
    | nil => exact hp rfl
    | cons p ps => simp [List.isPrefixOf] at hpre
  match s, hs with
  | c :: srest, _ =>
    have hpl : 1 ≤ pat.length := by
      cases pat with
      | nil => exact absurd rfl hp
      | cons _ _ => simp
    unfold pyReplace
    rw [if_neg (by simp [hp]), if_neg (by simp [hp])]
    simp only [List.length_cons, pyReplaceF]
    rw [if_pos hpre]
    congr 1
    have hd : ((c :: srest).drop pat.length).length ≤ srest.length := by
      simp only [List.length_drop, List.length_cons]
      omega
    exact pyReplaceF_fuel pat rep hp srest.length _ srest.length hd hd

theorem pyReplace_cons_neg {pat : Text} (rep : Text) (c : Char) (s : Text) (hp : pat ≠ [])
    (hpre : ¬ (pat.isPrefixOf (c :: s) = true)) :
    pyReplace (c :: s) pat rep = c :: pyReplace s pat rep := by
  unfold pyReplace
  rw [if_neg (by simp [hp]), if_neg (by simp [hp])]
  simp only [List.length_cons, pyReplaceF]
  rw [if_neg hpre]

theorem isPrefixOf_append_self (pat u : Text) : pat.isPrefixOf (pat ++ u) = true := by
  induction pat with
  | nil => simp [List.isPrefixOf]
  | cons c cs ih => simp [List.isPrefixOf, ih]

theorem pyReplace_append_first (pat rep : Text) (hp : pat ≠ []) :
    ∀ (a rest : Text),
      (∀ i, i < a.length → ¬ (pat.isPrefixOf ((a ++ pat ++ rest).drop i) = true)) →
      pyReplace (a ++ pat ++ rest) pat rep = a ++ rep ++ pyReplace rest pat rep := by
  intro a
  induction a with
  | nil =>
    intro rest _
    rw [List.nil_append]
    rw [pyReplace_cons_pos rep (pat ++ rest) hp (isPrefixOf_append_self pat rest)]
    rw [List.drop_left pat rest]
    rw [List.nil_append]
  | cons x a' ih =>
    intro rest hocc
    have h0 : ¬ (pat.isPrefixOf (x :: (a' ++ pat ++ rest)) = true) := by
      have := hocc 0 (by simp)
      simpa using this
    have heq : (x :: a') ++ pat ++ rest = x :: (a' ++ pat ++ rest) := by simp
    rw [heq, pyReplace_cons_neg rep x _ hp h0]
    rw [ih rest (fun i hi => by
      have := hocc (i + 1) (by simp only [List.length_cons]; omega)
      rw [heq] at this
      simpa [List.drop_succ_cons] using this)]
    rfl

theorem pyReplace_of_no_occ (pat rep : Text) (hp : pat ≠ []) :
    ∀ (s : Text), (∀ i, i < s.length → ¬ (pat.isPrefixOf (s.drop i) = true)) →
      pyReplace s pat rep = s := by
  intro s
  induction s with
  | nil => intro _; exact pyReplace_nil pat rep hp
  | cons c srest ih =>
    intro hocc
    have h0 : ¬ (pat.isPrefixOf (c :: srest) = true) := by
      simpa using hocc 0 (by simp)
    rw [pyReplace_cons_neg rep c srest hp h0,
      ih (fun i hi => by
        have := hocc (i + 1) (by simp only [List.length_cons]; omega)
        simpa [List.drop_succ_cons] using this)]

theorem mem_pyReplaceF (pat rep : Text) (ch : Char) :
    ∀ (fuel : Nat) (s : Text), ch ∈ pyReplaceF pat rep fuel s → ch ∈ s ∨ ch ∈ rep := by
  intro fuel
  induction fuel with
  | zero =>
    intro s h
    cases s with
    | nil => simp [pyReplaceF] at h
    | cons c srest =>
      simp only [pyReplaceF] at h
      exact Or.inl h
  | succ f ih =>
    intro s h
    cases s with
    | nil => simp [pyReplaceF] at h
    | cons c srest =>
      simp only [pyReplaceF] at h
      by_cases hpre : pat.isPrefixOf (c :: srest) = true
      · rw [if_pos hpre] at h
        rcases List.mem_append.mp h with h1 | h2
        · exact Or.inr h1
        · rcases ih _ h2 with h3 | h4
          · exact Or.inl (List.mem_of_mem_drop h3)
          · exact Or.inr h4
      · rw [if_neg hpre] at h
        rcases List.mem_cons.mp h with h1 | h2
        · exact Or.inl (h1 ▸ List.mem_cons_self c srest)
        · rcases ih _ h2 with h3 | h4
          · exact Or.inl (List.mem_cons_of_mem c h3)
          · exact Or.inr h4

theorem mem_pyReplace {s pat rep : Text} {ch : Char} (h : ch ∈ pyReplace s pat rep) :
    ch ∈ s ∨ ch ∈ rep := by
  unfold pyReplace at h
  by_cases hp : pat.isEmpty = true
  · rw [if_pos hp] at h
    rcases List.mem_append.mp h with h1 | h2
    · exact Or.inr h1
    · rcases List.mem_flatMap.mp h2 with ⟨x, hx, hmem⟩
      rcases List.mem_cons.mp hmem with h3 | h4
      · exact Or.inl (h3 ▸ hx)
      · exact Or.inr h4
  · rw [if_neg hp] at h
    exact mem_pyReplaceF pat rep ch _ _ h

theorem mem_normalizeSrc {src : Text} {ch : Char} (h : ch ∈ normalizeSrc src) :
    ch ∈ src ∨ ch ∈ ((" / ").toList) := by
  unfold normalizeSrc at h
  rcases mem_pyReplace h with h1 | h2
  · rcases mem_pyReplace h1 with h3 | h4
    · exact Or.inl h3
    · simp at h4
  · exact Or.inr h2

theorem linesWithEndAux_flatten (t : Text) :
    ∀ acc : Text, (linesWithEndAux acc t).flatten = acc.reverse ++ t := by
  induction t with
  | nil =>
    intro acc
    by_cases h : acc.isEmpty = true
    · rw [linesWithEndAux, if_pos h]
      simp [List.isEmpty_iff.mp h]
    · rw [linesWithEndAux, if_neg h]
      simp
  | cons c cs ih =>
    intro acc
    by_cases h : (c == '\n') = true
    · rw [linesWithEndAux, if_pos h, List.flatten_cons, ih []]
      simp
    · rw [linesWithEndAux, if_neg h, ih (c :: acc)]
      simp

theorem iterChunkAux_flatten (ls : List Text) :
    ∀ acc : List Text, (iterChunkAux acc ls).flatten = acc.reverse ++ ls := by
  induction ls with
  | nil =>
    intro acc
    simp [iterChunkAux]
  | cons l ls ih =>
    intro acc
    by_cases h : (l.all pyIsSpace) = true
    · rw [iterChunkAux, if_pos h, List.flatten_cons, ih []]
      simp
    · rw [iterChunkAux, if_neg h, ih (l :: acc)]
      simp

theorem chunksOfF_flatten {α : Type} (n : Nat) :
    ∀ (fuel : Nat) (l : List α), (chunksOfF n fuel l).flatten = l := by
  intro fuel
  induction fuel with
  | zero =>
    intro l
    cases l with
    | nil => rfl
    | cons x xs => simp [chunksOfF]
  | succ f ih =>
    intro l
    cases l with
    | nil => rfl
    | cons x xs =>
      simp only [chunksOfF, List.flatten_cons, ih]
      rw [List.cons_append, List.take_append_drop]

theorem chunksOf_flatten {α : Type} (n : Nat) (l : List α) : (chunksOf n l).flatten = l :=
  chunksOfF_flatten n l.length l

theorem readerChunks_flatten (n : Nat) (t : Text) : (readerChunks n t).flatten = t := by
  unfold readerChunks
  have hmap : ∀ (L : List (List (List Text))),
      (L.map (fun batch => batch.flatten.flatten)).flatten = L.flatten.flatten.flatten := by
    intro L
    induction L with
    | nil => rfl
    | cons b L ih =>
      simp only [List.map_cons, List.flatten_cons, ih, List.flatten_append]
  rw [hmap, chunksOf_flatten]
  unfold iterChunk
  rw [iterChunkAux_flatten]
  simp only [List.reverse_nil, List.nil_append]
  unfold linesWithEnd
  rw [linesWithEndAux_flatten]
  simp

theorem editE_some (chars words : List Text) (threshold : Nat) (text : Text)
    (m : TranslationMatch) (preserve : Bool) :
    editE (some chars) words threshold text m preserve =
      .ok (edit ⟨chars, words, threshold⟩ text m preserve) := by
  unfold editE edit
  split
  · rfl
  · split
    · rfl
    · rfl

theorem applyEditsE_some (chars words : List Text) (threshold : Nat) (preserve : Bool) :
    ∀ (ms : List TranslationMatch) (text : Text),
      applyEditsE (some chars) words threshold preserve text ms =
        .ok (ms.foldl (applyEdit ⟨chars, words, threshold⟩ preserve) text) := by
  intro ms
  induction ms with
  | nil => intro text; rfl
  | cons m ms ih =>
    intro text
    rw [List.foldl_cons]
    cases he : edit ⟨chars, words, threshold⟩ text m preserve with
    | none =>
      have ha : applyEdit ⟨chars, words, threshold⟩ preserve text m = text := by
        unfold applyEdit
        rw [he]
      simp only [applyEditsE, editE_some, he, ha, ih]
    | some t =>
      have ha : applyEdit ⟨chars, words, threshold⟩ preserve text m =
          (if t.isEmpty then text else t) := by
        unfold applyEdit
        rw [he]
      simp only [applyEditsE, editE_some, he, ha, ih]

theorem rpyChunkE_some (chars words : List Text) (threshold : Nat) (preserve : Bool)
    (text : Text) :
    rpyChunkE (some chars) words threshold preserve text =
      .ok (rpyChunk ⟨chars, words, threshold⟩ preserve text) := by
  unfold rpyChunkE rpyChunk
  exact applyEditsE_some chars words threshold preserve (iterTl text) text

theorem rpyFileTextE_some (chars words : List Text) (threshold : Nat) (preserve : Bool)
    (n : Nat) (t : Text) :
    rpyFileTextE (some chars) words threshold preserve n t =
      .ok (rpyFileText ⟨chars, words, threshold⟩ preserve n t) := by
  unfold rpyFileTextE rpyFileText
  have hmapM : ∀ L : List Text,
      (L.mapM (rpyChunkE (some chars) words threshold preserve)) =
        .ok (L.map (rpyChunk ⟨chars, words, threshold⟩ preserve)) := by
    intro L
    induction L with
    | nil => rfl
    | cons x xs ih =>
      rw [List.mapM_cons, rpyChunkE_some, ih]
      rfl
  rw [hmapM]
  rfl

theorem runLoop_nil (co : Option (List Text)) (w : List Text) (th : Nat) (pf : List Text)
    (n : Nat) (rpycs : List Text) :
    runLoop co w th pf n [] rpycs = ⟨[], none, [], rpycs⟩ := rfl

theorem runLoop_cons_error (co : Option (List Text)) (w : List Text) (th : Nat)
    (pf : List Text) (n : Nat) (s t : Text) (rest : List (Text × Text)) (rpycs : List Text)
    (hE : rpyFileTextE co w th (pf.contains s) n t = .error ()) :
    runLoop co w th pf n ((s, t) :: rest) rpycs =
      ⟨[], some RunErr.charScriptNotFound, (s, t) :: rest, rpycs⟩ := by
  simp only [runLoop, hE]

theorem runLoop_cons_ok_eq (co : Option (List Text)) (w : List Text) (th : Nat)
    (pf : List Text) (n : Nat) (s t t' : Text) (rest : List (Text × Text))
    (rpycs : List Text)
    (hE : rpyFileTextE co w th (pf.contains s) n t = .ok t') (hch : t' = t) :
    runLoop co w th pf n ((s, t) :: rest) rpycs =
      ⟨(runLoop co w th pf n rest rpycs).evs, (runLoop co w th pf n rest rpycs).err,
       (s, t) :: (runLoop co w th pf n rest rpycs).rpys,
       (runLoop co w th pf n rest rpycs).rpycs⟩ := by
  subst hch
  simp only [runLoop, hE]
  simp

theorem runLoop_cons_ok_ne (co : Option (List Text)) (w : List Text) (th : Nat)
    (pf : List Text) (n : Nat) (s t t' : Text) (rest : List (Text × Text))
    (rpycs : List Text)
    (hE : rpyFileTextE co w th (pf.contains s) n t = .ok t') (hch : t' ≠ t) :
    runLoop co w th pf n ((s, t) :: rest) rpycs =
      ⟨Ev.write s :: Ev.unlinkCache s ::
          (runLoop co w th pf n rest (rpycs.filter (fun c => c != s))).evs,
        (runLoop co w th pf n rest (rpycs.filter (fun c => c != s))).err,
        (s, t') :: (runLoop co w th pf n rest (rpycs.filter (fun c => c != s))).rpys,
        (runLoop co w th pf n rest (rpycs.filter (fun c => c != s))).rpycs⟩ := by
  simp only [runLoop, hE]
  rw [if_neg hch]

theorem runLoop_stems_mem (co : Option (List Text)) (w : List Text) (th : Nat)
    (pf : List Text) (n : Nat) :
    ∀ (files : List (Text × Text)) (rpycs : List Text) (s : Text),
      Ev.write s ∈ (runLoop co w th pf n files rpycs).evs ∨
        Ev.unlinkCache s ∈ (runLoop co w th pf n files rpycs).evs →
      s ∈ files.map Prod.fst := by
  intro files
  induction files with
  | nil =>
    intro rpycs s h
    rw [runLoop_nil] at h
    rcases h with h | h <;> simp at h
  | cons ft rest ih =>
    intro rpycs s h
    obtain ⟨s0, t0⟩ := ft
    cases hE : rpyFileTextE co w th (pf.contains s0) n t0 with
    | error e =>
      cases e
      rw [runLoop_cons_error co w th pf n s0 t0 rest rpycs hE] at h
      rcases h with h | h <;> simp at h
    | ok t' =>
      by_cases hch : t' = t0
      · rw [runLoop_cons_ok_eq co w th pf n s0 t0 t' rest rpycs hE hch] at h
        have := ih rpycs s h
        simp only [List.map_cons, List.mem_cons]
        exact Or.inr this
      · rw [runLoop_cons_ok_ne co w th pf n s0 t0 t' rest rpycs hE hch] at h
        simp only [List.map_cons, List.mem_cons]
        rcases h with h | h
        · rcases List.mem_cons.mp h with h1 | h2
          · exact Or.inl (Ev.write.inj h1)
          · rcases List.mem_cons.mp h2 with h3 | h4
            · exact absurd h3 (by simp)
            · exact Or.inr (ih _ s (Or.inl h4))
        · rcases List.mem_cons.mp h with h1 | h2
          · exact absurd h1 (by simp)
          · rcases List.mem_cons.mp h2 with h3 | h4
            · exact Or.inl (Ev.unlinkCache.inj h3)
            · exact Or.inr (ih _ s (Or.inr h4))

theorem runLoop_err_char (co : Option (List Text)) (w : List Text) (th : Nat)
    (pf : List Text) (n : Nat) :
    ∀ (files : List (Text × Text)) (rpycs : List Text),
      (runLoop co w th pf n files rpycs).err = some RunErr.charScriptNotFound →
      ∃ pre pre' s t post, files = pre ++ (s, t) :: post
        ∧ (runLoop co w th pf n files rpycs).rpys = pre' ++ (s, t) :: post
        ∧ pre'.map Prod.fst = pre.map Prod.fst
        ∧ rpyFileTextE co w th (pf.contains s) n t = .error ()
        ∧ (∀ st, Ev.write st ∈ (runLoop co w th pf n files rpycs).evs →
            st ∈ pre.map Prod.fst) := by
  intro files
  induction files with
  | nil =>
    intro rpycs h
    rw [runLoop_nil] at h
    simp at h
  | cons ft rest ih =>
    intro rpycs h
    obtain ⟨s0, t0⟩ := ft
    cases hE : rpyFileTextE co w th (pf.contains s0) n t0 with
    | error e =>
      cases e
      rw [runLoop_cons_error co w th pf n s0 t0 rest rpycs hE]
      exact ⟨[], [], s0, t0, rest, by simp, by simp, rfl, hE, fun st hst => by simp at hst⟩
    | ok t' =>
      by_cases hch : t' = t0
      · rw [runLoop_cons_ok_eq co w th pf n s0 t0 t' rest rpycs hE hch] at h ⊢
        obtain ⟨pre, pre', s, t, post, h1, h2, h3, h4, h5⟩ := ih rpycs h
        refine ⟨(s0, t0) :: pre, (s0, t0) :: pre', s, t, post, by rw [List.cons_append, h1],
          ?_, by simp [h3], h4, ?_⟩
        · show (s0, t0) :: (runLoop co w th pf n rest rpycs).rpys = _
          rw [h2, List.cons_append]
        · intro st hst
          simp only [List.map_cons, List.mem_cons]
          exact Or.inr (h5 st hst)
      · rw [runLoop_cons_ok_ne co w th pf n s0 t0 t' rest rpycs hE hch] at h ⊢
        obtain ⟨pre, pre', s, t, post, h1, h2, h3, h4, h5⟩ := ih _ h
        refine ⟨(s0, t0) :: pre, (s0, t') :: pre', s, t, post, by rw [List.cons_append, h1],
          ?_, by simp [h3], h4, ?_⟩
        · show (s0, t') :: (runLoop co w th pf n rest _).rpys = _
          rw [h2, List.cons_append]
        · intro st hst
          simp only [List.map_cons, List.mem_cons]
          rcases List.mem_cons.mp hst with h6 | h7
          · exact Or.inl (Ev.write.inj h6)
          · rcases List.mem_cons.mp h7 with h8 | h9
            · exact absurd h8 (by simp)
            · exact Or.inr (h5 st h9)

theorem runLoop_ok_frame (co : Option (List Text)) (w : List Text) (th : Nat)
    (pf : List Text) (n : Nat) :
    ∀ (files : List (Text × Text)) (rpycs : List Text),
      (runLoop co w th pf n files rpycs).err = none →
      (files.map Prod.fst).Nodup →
      (∀ s t, (s, t) ∈ files →
        ∃ t', rpyFileTextE co w th (pf.contains s) n t = .ok t'
          ∧ (s, t') ∈ (runLoop co w th pf n files rpycs).rpys
          ∧ (Ev.write s ∈ (runLoop co w th pf n files rpycs).evs ↔ t' ≠ t)
          ∧ (Ev.unlinkCache s ∈ (runLoop co w th pf n files rpycs).evs ↔ t' ≠ t)
          ∧ (s ∈ (runLoop co w th pf n files rpycs).rpycs ↔ s ∈ rpycs ∧ t' = t))
      ∧ (∀ s, s ∉ files.map Prod.fst →
          (s ∈ (runLoop co w th pf n files rpycs).rpycs ↔ s ∈ rpycs)) := by
  intro files
  induction files with
  | nil =>
    intro rpycs _ _
    refine ⟨fun s t hmem => absurd hmem (by simp), fun s _ => ?_⟩
    rw [runLoop_nil]
  | cons ft rest ih =>
    intro rpycs herr hnd
    obtain ⟨s0, t0⟩ := ft
    have hnd' : (rest.map Prod.fst).Nodup := (List.nodup_cons.mp hnd).2
    have hs0 : s0 ∉ rest.map Prod.fst := (List.nodup_cons.mp hnd).1
    cases hE : rpyFileTextE co w th (pf.contains s0) n t0 with
    | error e =>
      cases e
      rw [runLoop_cons_error co w th pf n s0 t0 rest rpycs hE] at herr
      simp at herr
    | ok t' =>
      by_cases hch : t' = t0
      · subst hch
        rw [runLoop_cons_ok_eq co w th pf n s0 t' t' rest rpycs hE rfl] at herr ⊢
        dsimp only at herr ⊢
        obtain ⟨ih1, ih2⟩ := ih rpycs herr hnd'
        constructor
        · intro s t hmem
          rcases List.mem_cons.mp hmem with h1 | h2
          · rw [Prod.mk.injEq] at h1
            obtain ⟨hseq, hteq⟩ := h1
            subst hseq
            subst hteq
            refine ⟨t, hE, List.mem_cons_self _ _, ?_, ?_, ?_⟩
            · simp only [ne_eq, not_true_eq_false, iff_false]
              intro hw
              exact hs0 (runLoop_stems_mem co w th pf n rest rpycs s (Or.inl hw))
            · simp only [ne_eq, not_true_eq_false, iff_false]
              intro hw
              exact hs0 (runLoop_stems_mem co w th pf n rest rpycs s (Or.inr hw))
            · rw [ih2 s hs0]
              simp
          · obtain ⟨t2, hE2, hmem2, hw2, hu2, hc2⟩ := ih1 s t h2
            exact ⟨t2, hE2, List.mem_cons_of_mem _ hmem2, hw2, hu2, hc2⟩
        · intro s hs
          have hsr : s ∉ rest.map Prod.fst := fun h => hs (by simp [h])
          exact ih2 s hsr
      · rw [runLoop_cons_ok_ne co w th pf n s0 t0 t' rest rpycs hE hch] at herr ⊢
        dsimp only at herr ⊢
        obtain ⟨ih1, ih2⟩ := ih (rpycs.filter (fun c => c != s0)) herr hnd'
        constructor
        · intro s t hmem
          rcases List.mem_cons.mp hmem with h1 | h2
          · rw [Prod.mk.injEq] at h1
            obtain ⟨hseq, hteq⟩ := h1
            subst hseq
            subst hteq
            refine ⟨t', hE, List.mem_cons_self _ _, ?_, ?_, ?_⟩
            · simp [hch]
            · simp [hch]
            · rw [ih2 s hs0]
              simp [hch, List.mem_filter]
          · have hne : s ≠ s0 := by
              intro he
              subst he
              exact hs0 (List.mem_map.mpr ⟨(s, t), h2, rfl⟩)
            obtain ⟨t2, hE2, hmem2, hw2, hu2, hc2⟩ := ih1 s t h2
            refine ⟨t2, hE2, List.mem_cons_of_mem _ hmem2, ?_, ?_, ?_⟩
            · rw [← hw2]
              simp [hne]
            · rw [← hu2]
              simp [hne]
            · rw [hc2]
              simp [List.mem_filter, hne]
        · intro s hs
          have hne : s ≠ s0 := fun he => hs (by simp [he])
          have hsr : s ∉ rest.map Prod.fst := fun h => hs (by simp [h])
          rw [ih2 s hsr]
          simp [List.mem_filter, hne]

theorem runModel_empty (inp : RunInput) (h : inp.rpys = []) :
    runModel inp = ⟨backupEvs inp, some RunErr.languageEmpty, inp.rpys, inp.rpycs⟩ := by
  unfold runModel
  rw [if_pos (by simp [h])]

theorem runModel_loop_err (inp : RunInput) (e : RunErr) (hne : inp.rpys ≠ [])
    (h : (theLoop inp).err = some e) :
    runModel inp = ⟨backupEvs inp ++ (theLoop inp).evs, some e, (theLoop inp).rpys,
      (theLoop inp).rpycs⟩ := by
  unfold runModel
  rw [if_neg (by simp [hne]), h]

theorem runModel_loop_ok (inp : RunInput) (hne : inp.rpys ≠ [])
    (h : (theLoop inp).err = none) :
    runModel inp = ⟨backupEvs inp ++ (theLoop inp).evs ++ devEvs inp, none,
      (theLoop inp).rpys, (theLoop inp).rpycs⟩ := by
  unfold runModel
  rw [if_neg (by simp [hne]), h]

theorem runLoop_dev_not_mem (co : Option (List Text)) (w : List Text) (th : Nat)
    (pf : List Text) (n : Nat) :
    ∀ (files : List (Text × Text)) (rpycs : List Text),
      Ev.dev ∉ (runLoop co w th pf n files rpycs).evs := by
  intro files
  induction files with
  | nil =>
    intro rpycs
    rw [runLoop_nil]
    simp
  | cons ft rest ih =>
    intro rpycs
    obtain ⟨s0, t0⟩ := ft
    cases hE : rpyFileTextE co w th (pf.contains s0) n t0 with
    | error e =>
      cases e
      rw [runLoop_cons_error co w th pf n s0 t0 rest rpycs hE]
      simp
    | ok t' =>
      by_cases hch : t' = t0
      · subst hch
        rw [runLoop_cons_ok_eq co w th pf n s0 t' t' rest rpycs hE rfl]
        exact ih rpycs
      · rw [runLoop_cons_ok_ne co w th pf n s0 t0 t' rest rpycs hE hch]
        intro h
        rcases List.mem_cons.mp h with h1 | h2
        · simp at h1
        · rcases List.mem_cons.mp h2 with h3 | h4
          · simp at h3
          · exact ih _ h4

theorem percentSubAux_cons_ne (prev : Option Char) (c : Char) (rest : Text)
    (hc : (c == '%') = false) :
    percentSubAux prev (c :: rest) = c :: percentSubAux (some c) rest := by
  rw [percentSubAux_cons, if_neg (by simp [hc])]

theorem percentSub_new_prefixOf {d : Text}
    (h : (("new:").toList).isPrefixOf d = true) :
    (("new:").toList).isPrefixOf (percentSub d) = true := by
  have e0 : ("new:").toList = 'n' :: 'e' :: 'w' :: ':' :: [] := rfl
  rw [List.isPrefixOf_iff_prefix] at h
  obtain ⟨rest, hrest⟩ := h
  rw [e0] at hrest
  subst hrest
  have e1 : percentSub ('n' :: 'e' :: 'w' :: ':' :: [] ++ rest) =
      'n' :: 'e' :: 'w' :: ':' :: percentSubAux (some ':') rest := by
    unfold percentSub
    rw [List.cons_append, List.cons_append, List.cons_append, List.cons_append,
      List.nil_append]
    rw [percentSubAux_cons_ne _ _ _ (by decide), percentSubAux_cons_ne _ _ _ (by decide),
      percentSubAux_cons_ne _ _ _ (by decide), percentSubAux_cons_ne _ _ _ (by decide)]
  rw [e1, e0, List.isPrefixOf_iff_prefix]
  exact ⟨percentSubAux (some ':') rest, rfl⟩

theorem mem_of_getLast?_eq {l : Text} {x : Char} (h : l.getLast? = some x) : x ∈ l := by
  induction l with
  | nil => simp at h
  | cons c cs ih =>
    cases cs with
    | nil =>
      simp only [List.getLast?_singleton, Option.some.injEq] at h
      simp [h]
    | cons d ds =>
      rw [List.getLast?_cons_cons] at h
      exact List.mem_cons_of_mem c (ih h)

theorem mem_of_head?_eq {l : Text} {x : Char} (h : l.head? = some x) : x ∈ l := by
  cases l with
  | nil => simp at h
  | cons c cs =>
    simp only [List.head?_cons, Option.some.injEq] at h
    simp [h]

theorem edit_eq_some_shape {env : Env} {text : Text} {m : TranslationMatch}
    {preserve : Bool} {t : Text} (h : edit env text m preserve = some t) :
    ∃ rep, t = pyReplace text m.full rep := by
  unfold edit at h
  split at h
  · exact absurd h (by simp)
  · split at h
    · exact ⟨_, (Option.some.inj h).symm⟩
    · unfold editSideBySide at h
      split at h
      · split at h
        · exact ⟨_, (Option.some.inj h).symm⟩
        · exact ⟨_, (Option.some.inj h).symm⟩
      · split at h
        · exact ⟨_, (Option.some.inj h).symm⟩
        · dsimp only at h
          split at h
          · exact ⟨_, (Option.some.inj h).symm⟩
          · exact absurd h (by simp)

/-- C1 (code_bug): the spec asserts that running the translation rewrite
twice is idempotent, but the per-file rewrite is not: on a file whose source
text `a%b` contains an isolated percent sign, the first run merges the entry
into `new "a%b  |  x"`; on the second run the re-captured translation is
percent-normalised to `a%%b  |  x`, which no longer starts with the source,
so the entry is merged again and the file changes once more. -/
theorem claim1_idempotence_fails :
    rpyFileText defaultEnvNoChars false 100 c1Input = c1Once
    ∧ rpyFileText defaultEnvNoChars false 100 c1Once = c1Twice
    ∧ c1Twice ≠ c1Once :=
  ⟨by decide, by decide, by decide⟩

/-- C2 (counterexample): the claim says only the first occurrence of the
entry's full-match text is replaced; in fact Python's `str.replace` replaces
every occurrence.  On a chunk holding the same entry twice, the edit of the
first match rewrites both copies, so the result differs from the
first-occurrence-only text. -/
theorem claim2_counterexample :
    (iterTl c2Text).head? = some c2M
    ∧ edit defaultEnvNoChars c2Text c2M false = some c2Both
    ∧ c2Both ≠ c2FirstOnly :=
  ⟨by decide, by decide, by decide⟩

/-- C2 (amended): when the rewriter edits an entry, the replacement is a
verbatim substring replace of the entry's full-match text that substitutes
every non-overlapping occurrence, left to right — not only the first.  For a
chunk of the shape `a ++ full ++ b ++ full ++ c` in which the full-match text
occurs exactly at those two positions, both occurrences are replaced by the
same replacement string. -/
theorem claim2_replaces_every_occurrence (env : Env) (preserve : Bool)
    (m : TranslationMatch) (a b c t : Text) (hfull : m.full ≠ [])
    (ha : ∀ i, i < a.length →
      ¬ (m.full.isPrefixOf ((a ++ m.full ++ (b ++ m.full ++ c)).drop i) = true))
    (hb : ∀ i, i < b.length → ¬ (m.full.isPrefixOf ((b ++ m.full ++ c).drop i) = true))
    (hc : ∀ i, i < c.length → ¬ (m.full.isPrefixOf (c.drop i) = true))
    (h : edit env (a ++ m.full ++ (b ++ m.full ++ c)) m preserve = some t) :
    ∃ rep, t = a ++ rep ++ b ++ rep ++ c := by
  obtain ⟨rep, hrep⟩ := edit_eq_some_shape h
  refine ⟨rep, ?_⟩
  rw [hrep, pyReplace_append_first m.full rep hfull a _ ha,
    pyReplace_append_first m.full rep hfull b c hb,
    pyReplace_of_no_occ m.full rep hfull c hc]
  simp [List.append_assoc]

/-- Witness for C2 (amended) at the concrete two-occurrence chunk. -/
theorem claim2_witness :
    ∃ rep, c2Both = [] ++ rep ++ (("\n\n").toList) ++ rep ++ (("\n").toList) :=
  claim2_replaces_every_occurrence defaultEnvNoChars false c2M [] (("\n\n").toList)
    (("\n").toList) c2Both (by decide) (by decide) (by decide) (by decide) (by decide)

/-- C3 (counterexample): the claim guards on the translated text "as it
appears in the file"; the code guards on the percent-normalised translation.
In `old "a%b"` / `new "a%bc"` the raw translation starts with the source
verbatim, yet the normalised translation `a%%bc` does not, so the chunk is
rewritten rather than returned byte-identical. -/
theorem claim3_counterexample :
    finditer matchP1 c3Input =
      [⟨("old \"a%b\"\nnew \"a%bc\"").toList, ("old \"a%b\"\nnew ").toList,
        ("a%b").toList, ("a%bc").toList⟩]
    ∧ (("a%b").toList).isPrefixOf (("a%bc").toList) = true
    ∧ rpyFileText defaultEnvNoChars false 100 c3Input ≠ c3Input :=
  ⟨by decide, by decide, by decide⟩

/-- C3 (amended): the no-op guard fires on the percent-normalised
translation: for every entry whose normalised translation starts with its
source verbatim — and likewise when the source starts with `old:` and the
raw translation starts with `new:` — the rewriter returns the chunk
unchanged (`_edit` returns `None`). -/
theorem claim3_noop_guard_normalized (env : Env) (preserve : Bool) (text : Text)
    (f hd s d : Text)
    (hg : s.isPrefixOf (percentSub d) = true
      ∨ ((("old:").toList).isPrefixOf s = true ∧ (("new:").toList).isPrefixOf d = true)) :
    edit env text (mkTranslationMatch ⟨f, hd, s, d⟩) preserve = none := by
  have hguard : editGuard (mkTranslationMatch ⟨f, hd, s, d⟩) = true := by
    unfold editGuard mkTranslationMatch
    dsimp only
    rcases hg with h1 | ⟨h2, h3⟩
    · rw [h1]
      simp
    · rw [h2, percentSub_new_prefixOf h3]
      simp
  unfold edit
  rw [hguard]
  simp

/-- Witness for C3 (amended). -/
theorem claim3_witness :
    edit defaultEnvNoChars (("x").toList)
      (mkTranslationMatch ⟨("f").toList, ("h").toList, ("ab").toList, ("abz").toList⟩)
      false = none :=
  claim3_noop_guard_normalized defaultEnvNoChars false (("x").toList) (("f").toList)
    (("h").toList) (("ab").toList) (("abz").toList) (Or.inl (by decide))

/-- C4 (counterexample): the final rewritten output is not identical for
every batch size.  In `c4Input` the `old`/`new` pair spans a blank line (the
pattern's `(\s+)` crosses it), so with batch size 1 the two blocks land in
different chunks and nothing matches, while batch size 2 sees the whole entry
and merges it. -/
theorem claim4_counterexample :
    rpyFileText defaultEnvNoChars false 1 c4Input = c4Input
    ∧ rpyFileText defaultEnvNoChars false 2 c4Input ≠
        rpyFileText defaultEnvNoChars false 1 c4Input :=
  ⟨by decide, by decide⟩

/-- C4 (amended): for every file and every batch size `n ≥ 1` the chunked
reader yields strings whose concatenation is exactly the file's content, and
no blank-line-delimited block is ever split across two yielded chunks
(batching concatenates whole consecutive blocks); the rewritten output can
however depend on `n` when an entry spans a blank line. -/
theorem claim4_reader_chunks (n : Nat) (t : Text) (bs : List (List Text)) (hn : 1 ≤ n) :
    (readerChunks n t).flatten = t ∧ (chunksOf n bs).flatten = bs :=
  ⟨readerChunks_flatten n t, chunksOf_flatten n bs⟩

/-- Witness for C4 (amended). -/
theorem claim4_witness :
    (readerChunks 1 (("ab\n\ncd\n").toList)).flatten = ("ab\n\ncd\n").toList
    ∧ (chunksOf 1 [[("x").toList]]).flatten = [[("x").toList]] :=
  claim4_reader_chunks 1 (("ab\n\ncd\n").toList) [[("x").toList]] (by decide)

/-- C5 (confirmed): percent normalisation at entry construction: a
translation with exactly one percent sign (not adjacent to another) has it
doubled; a translation whose percents are already all doubled is unchanged; a
translation with no percent is unchanged; and the construction applies
exactly this normalisation to the translation, leaving the other fields (and
any policy configuration) out of it. -/
theorem claim5_percent_normalization :
    (∀ a b : Text, '%' ∉ a → '%' ∉ b →
      percentSub (a ++ '%' :: b) = a ++ '%' :: '%' :: b)
    ∧ (∀ s : Text, allDoubled s = true → percentSub s = s)
    ∧ (∀ s : Text, '%' ∉ s → percentSub s = s)
    ∧ (∀ m : RawMatch, mkTranslationMatch m =
        ⟨m.full, m.head, m.src, percentSub m.dst⟩) := by
  refine ⟨?_, fun s h => percentSub_of_allDoubled h, fun s h => percentSub_of_not_mem h,
    fun m => rfl⟩
  intro a b ha hb
  have hla : a.getLast? ≠ some '%' := fun h => ha (mem_of_getLast?_eq h)
  have hhb : b.head? ≠ some '%' := fun h => hb (mem_of_head?_eq h)
  rw [percentSub_append_isolated hla hhb, percentSub_of_not_mem ha,
    percentSub_of_not_mem hb]

/-- Witness for C5. -/
theorem claim5_witness :
    percentSub ((("abc").toList) ++ '%' :: (("de").toList)) =
      (("abc").toList) ++ '%' :: '%' :: (("de").toList)
    ∧ percentSub (("a%%b").toList) = ("a%%b").toList
    ∧ percentSub (("xyz").toList) = ("xyz").toList :=
  ⟨claim5_percent_normalization.1 (("abc").toList) (("de").toList) (by decide) (by decide),
   claim5_percent_normalization.2.1 (("a%%b").toList) (by decide),
   claim5_percent_normalization.2.2.1 (("xyz").toList) (by decide)⟩

/-- C6 (counterexample): in a preserved file, an entry caught by the no-op
guard is not rewritten to source-only form: with `old "s1"` / `new "s1X"`
the translation starts with the source, the rewriter returns the chunk
unchanged, and the translation `s1X` survives — contradicting "every matched
entry is rewritten to source-only". -/
theorem claim6_counterexample :
    (iterTl c6Input).length = 1
    ∧ rpyFileText defaultEnvNoChars true 100 c6Input = c6Input
    ∧ c6Input ≠ ("old \"s1\"\nnew \"s1\"\n").toList :=
  ⟨by decide, by decide, by decide⟩

/-- C6 (amended): in a preserved file, every matched entry that the no-op
guard does not catch is rewritten to source-only form (head followed by the
quoted source, the translation discarded), regardless of the source's
length, the threshold, or the character roster. -/
theorem claim6_preserved_file_rewrite (env : Env) (text : Text) (m : TranslationMatch)
    (hguard : editGuard m = false) :
    edit env text m true =
      some (pyReplace text m.full (m.head ++ '"' :: (m.src ++ ['"']))) := by
  unfold edit
  rw [hguard]
  simp

/-- Witness for C6 (amended). -/
theorem claim6_witness :
    edit defaultEnvNoChars (("old \"s1\"\nnew \"zz\"").toList)
      ⟨("old \"s1\"\nnew \"zz\"").toList, ("old \"s1\"\nnew ").toList,
        ("s1").toList, ("zz").toList⟩ true =
      some (pyReplace (("old \"s1\"\nnew \"zz\"").toList)
        (("old \"s1\"\nnew \"zz\"").toList)
        ((("old \"s1\"\nnew ").toList) ++ '"' :: ((("s1").toList) ++ ['"']))) :=
  claim6_preserved_file_rewrite defaultEnvNoChars (("old \"s1\"\nnew \"zz\"").toList)
    ⟨("old \"s1\"\nnew \"zz\"").toList, ("old \"s1\"\nnew ").toList,
      ("s1").toList, ("zz").toList⟩ (by decide)

/-- C7 (counterexample): the claim omits the no-op guard.  For the entry
`old "{p}abcdefghijk"` / `new "{p}abcdefghijkZ"` every hypothesis of the
claim holds — the source is longer than the threshold, it is no preserved
word and no character, and the normalised source ` / abcdefghijk` is not a
prefix of the translation — yet the translation starts with the raw source,
so the guard returns the chunk unchanged instead of producing the merge. -/
theorem claim7_counterexample :
    (iterTl c7Input).head? = some c7M
    ∧ 12 < c7M.src.length
    ∧ (normalizeSrc c7M.src).isPrefixOf c7M.dst = false
    ∧ PRESERVE_WORDS.contains (stripDots (pyStrip c7M.src)) = false
    ∧ rpyFileText defaultEnvNoChars false 100 c7Input = c7Input :=
  ⟨by decide, by decide, by decide, by decide, by decide⟩

/-- C7 (amended): for an entry that passes the no-op guard, in a
non-preserved file, whose source is no preserved word, no character name and
longer than the threshold, and whose normalised source (every `{w}` removed,
every `{p}` replaced by ` / `) is not a prefix of the translation, the
rewriter replaces the full match by head, quote, normalised source, the
literal two-character escape backslash-n, translation, quote — and that
replacement string contains no actual newline character when head, source
and translation contain none. -/
theorem claim7_long_merge (env : Env) (text : Text) (m : TranslationMatch)
    (hguard : editGuard m = false)
    (hword : env.preserveWords.contains (stripDots (pyStrip m.src)) = false)
    (hchar : env.characters.contains (stripBrackets m.src) = false)
    (hlen : env.linebreakThreshold < m.src.length)
    (hpre : (normalizeSrc m.src).isPrefixOf m.dst = false) :
    edit env text m false =
      some (pyReplace text m.full
        (m.head ++ '"' :: (normalizeSrc m.src ++ '\\' :: 'n' :: (m.dst ++ ['"']))))
    ∧ ('\n' ∉ m.src → '\n' ∉ m.dst →
        '\n' ∉ '"' :: (normalizeSrc m.src ++ '\\' :: 'n' :: (m.dst ++ ['"']))) := by
  constructor
  · unfold edit
    rw [hguard]
    simp only [Bool.false_eq_true, if_false, Bool.false_or]
    rw [hword]
    simp only [Bool.false_eq_true, if_false]
    unfold editSideBySide
    rw [hchar]
    simp only [Bool.false_eq_true, if_false]
    rw [if_neg (by omega)]
    simp [hpre]
  · intro h2 h3
    intro hmem
    simp only [List.mem_cons, List.mem_append] at hmem
    rcases hmem with h | h | h | h | h | h
    · exact absurd h (by decide)
    · rcases mem_normalizeSrc h with h | h
      · exact h2 h
      · exact absurd h (by decide)
    · exact absurd h (by decide)
    · exact absurd h (by decide)
    · exact h3 h
    · exact absurd h (by decide)

/-- The entry used to witness C7 (amended): a long plain source. -/
def c7WitM : TranslationMatch :=
  ⟨("old \"abcdefghijklmn\"\nnew \"zz\"").toList, ("old \"abcdefghijklmn\"\nnew ").toList,
   ("abcdefghijklmn").toList, ("zz").toList⟩

/-- Witness for C7 (amended). -/
theorem claim7_witness :
    edit defaultEnvNoChars (("old \"abcdefghijklmn\"\nnew \"zz\"").toList) c7WitM false =
      some (pyReplace (("old \"abcdefghijklmn\"\nnew \"zz\"").toList) c7WitM.full
        (c7WitM.head ++ '"' :: (normalizeSrc c7WitM.src ++ '\\' :: 'n' ::
          (c7WitM.dst ++ ['"']))))
    ∧ '\n' ∉ '"' :: (normalizeSrc c7WitM.src ++ '\\' :: 'n' ::
        (c7WitM.dst ++ ['"'])) :=
  ⟨(claim7_long_merge defaultEnvNoChars (("old \"abcdefghijklmn\"\nnew \"zz\"").toList)
      c7WitM (by decide) (by decide) (by decide) (by decide) (by decide)).1,
   (claim7_long_merge defaultEnvNoChars (("old \"abcdefghijklmn\"\nnew \"zz\"").toList)
      c7WitM (by decide) (by decide) (by decide) (by decide) (by decide)).2
     (by decide) (by decide)⟩

/-- C8 (counterexample): the run creates the backup archive before either
check.  With the character script configured but missing, the run aborts with
the not-found error, yet the backup event has already happened; and with a
preserved file first, that file is even rewritten before the missing
character script is noticed on the second file. -/
theorem claim8_counterexample :
    (runModel c8InputA).evs = [Ev.backup]
    ∧ (runModel c8InputA).err = some RunErr.charScriptNotFound
    ∧ (runModel c8InputB).evs =
        [Ev.backup, Ev.write (("gui").toList), Ev.unlinkCache (("gui").toList)]
    ∧ (runModel c8InputB).err = some RunErr.charScriptNotFound
    ∧ (runModel c8InputB).rpys.head? =
        some (("gui").toList, ("old \"s1\"\nnew \"s1\"\n").toList) :=
  ⟨by decide, by decide, by decide, by decide, by decide⟩

/-- C8 (amended): both failure checks abort the run before the dev-mode step
and before the file being processed is touched, but after the backup step:
an empty file set aborts before any rewrite at all; a missing character
script aborts while processing some file, leaving that file and every later
file unmodified (earlier files may already be rewritten); and whenever a
backup is due it is the first event of the run. -/
theorem claim8_checks_order (inp : RunInput) :
    (inp.rpys = [] →
      (runModel inp).err = some RunErr.languageEmpty
      ∧ (∀ e ∈ (runModel inp).evs, e = Ev.backup)
      ∧ (runModel inp).rpys = inp.rpys ∧ (runModel inp).rpycs = inp.rpycs)
    ∧ ((runModel inp).err = some RunErr.charScriptNotFound →
      Ev.dev ∉ (runModel inp).evs
      ∧ ∃ pre pre' s t post, inp.rpys = pre ++ (s, t) :: post
          ∧ (runModel inp).rpys = pre' ++ (s, t) :: post
          ∧ pre'.map Prod.fst = pre.map Prod.fst
          ∧ (∀ st, Ev.write st ∈ (runModel inp).evs → st ∈ pre.map Prod.fst))
    ∧ (inp.backupConfigured = true → inp.backupZipExists = false →
      (runModel inp).evs.head? = some Ev.backup) := by
  refine ⟨?_, ?_, ?_⟩
  · intro he
    rw [runModel_empty inp he]
    refine ⟨rfl, ?_, rfl, rfl⟩
    intro e hmem
    unfold backupEvs at hmem
    split at hmem
    · simpa using hmem
    · simp at hmem
  · intro herr
    have hne : inp.rpys ≠ [] := by
      intro he
      rw [runModel_empty inp he] at herr
      simp at herr
    have hloop : (theLoop inp).err = some RunErr.charScriptNotFound := by
      cases ho : (theLoop inp).err with
      | none =>
        rw [runModel_loop_ok inp hne ho] at herr
        simp at herr
      | some e =>
        rw [runModel_loop_err inp e hne ho] at herr
        simp only [Option.some.injEq] at herr
        rw [herr]
    rw [runModel_loop_err inp RunErr.charScriptNotFound hne hloop]
    unfold theLoop at hloop ⊢
    dsimp only
    have hbd : Ev.dev ∉ backupEvs inp := by
      unfold backupEvs
      split <;> simp
    constructor
    · intro hmem
      rcases List.mem_append.mp hmem with h | h
      · exact hbd h
      · exact runLoop_dev_not_mem (charsOptOf inp) inp.preserveWords inp.threshold
          inp.preserveFiles inp.batchSize inp.rpys inp.rpycs h
    · obtain ⟨pre, pre', s, t, post, h1, h2, h3, h4, h5⟩ :=
        runLoop_err_char (charsOptOf inp) inp.preserveWords inp.threshold
          inp.preserveFiles inp.batchSize inp.rpys inp.rpycs hloop
      refine ⟨pre, pre', s, t, post, h1, h2, h3, ?_⟩
      intro st hst
      rcases List.mem_append.mp hst with h | h
      · exact absurd h (by unfold backupEvs; split <;> simp)
      · exact h5 st h
  · intro hb hz
    have hbe : backupEvs inp = [Ev.backup] := by
      unfold backupEvs
      rw [if_pos (by simp [hb, hz])]
    by_cases he : inp.rpys = []
    · rw [runModel_empty inp he, hbe]
      rfl
    · cases ho : (theLoop inp).err with
      | none =>
        rw [runModel_loop_ok inp he ho, hbe]
        rfl
      | some e =>
        rw [runModel_loop_err inp e he ho, hbe]
        rfl

/-- Witness for C8 (amended): at the missing-character-script input the run
aborted with no dev write and backup first. -/
theorem claim8_witness :
    Ev.dev ∉ (runModel c8InputA).evs
    ∧ (runModel c8InputA).evs.head? = some Ev.backup :=
  ⟨((claim8_checks_order c8InputA).2.1 (by decide)).1,
   (claim8_checks_order c8InputA).2.2 (by decide) (by decide)⟩

/-- C9 (confirmed): for every successful run, each translation file is
overwritten exactly when its rewritten text differs from its current
content; on overwrite the same-stem compiled-cache sibling is removed (if
present) and the unlink is issued; when the rewritten text equals the
content, the file keeps its content and neither a write nor a cache unlink
for it occurs, its cache sibling surviving untouched — and cache files of
stems outside the run are untouched as well. -/
theorem claim9_frame_condition (inp : RunInput)
    (hok : (runModel inp).err = none)
    (hnd : (inp.rpys.map Prod.fst).Nodup) :
    (∀ s t, (s, t) ∈ inp.rpys →
      ∃ t', rpyFileTextE (charsOptOf inp) inp.preserveWords inp.threshold
          (inp.preserveFiles.contains s) inp.batchSize t = .ok t'
        ∧ (s, t') ∈ (runModel inp).rpys
        ∧ (Ev.write s ∈ (runModel inp).evs ↔ t' ≠ t)
        ∧ (Ev.unlinkCache s ∈ (runModel inp).evs ↔ t' ≠ t)
        ∧ (s ∈ (runModel inp).rpycs ↔ s ∈ inp.rpycs ∧ t' = t))
    ∧ (∀ s, s ∉ inp.rpys.map Prod.fst →
        (s ∈ (runModel inp).rpycs ↔ s ∈ inp.rpycs)) := by
  have hne : inp.rpys ≠ [] := by
    intro he
    rw [runModel_empty inp he] at hok
    simp at hok
  have hloop : (theLoop inp).err = none := by
    cases ho : (theLoop inp).err with
    | none => rfl
    | some e =>
      rw [runModel_loop_err inp e hne ho] at hok
      simp at hok
  rw [runModel_loop_ok inp hne hloop]
  unfold theLoop at hloop ⊢
  dsimp only
  obtain ⟨f1, f2⟩ := runLoop_ok_frame (charsOptOf inp) inp.preserveWords inp.threshold
    inp.preserveFiles inp.batchSize inp.rpys inp.rpycs hloop hnd
  have hwb : ∀ s, Ev.write s ∉ backupEvs inp ∧ Ev.write s ∉ devEvs inp
      ∧ Ev.unlinkCache s ∉ backupEvs inp ∧ Ev.unlinkCache s ∉ devEvs inp := by
    intro s
    refine ⟨?_, ?_, ?_, ?_⟩ <;> first
      | (unfold backupEvs; split <;> simp)
      | (unfold devEvs; split <;> simp)
  constructor
  · intro s t hmem
    obtain ⟨t', hE, hmem', hw, hu, hc⟩ := f1 s t hmem
    refine ⟨t', hE, hmem', ?_, ?_, hc⟩
    · rw [← hw]
      simp [List.mem_append, (hwb s).1, (hwb s).2.1]
    · rw [← hu]
      simp [List.mem_append, (hwb s).2.2.1, (hwb s).2.2.2]
  · exact f2

/-- A character script declaring one character, for the C9 witness run. -/
def c9Script : Text := ("define c1 = Character(\"character1\")\n").toList

/-- Content of file `a` of the C9 witness run: the rewrite changes it. -/
def c9ContentA : Text := ("old \"s1\"\nnew \"x\"\n").toList

/-- Content of file `b` of the C9 witness run: the no-op guard leaves it
unchanged. -/
def c9ContentB : Text := ("old \"s1\"\nnew \"s1 zz\"\n").toList

/-- A successful run over two files, both with compiled-cache siblings. -/
def c9Input : RunInput :=
  ⟨true, some c9Script, [(("a").toList, c9ContentA), (("b").toList, c9ContentB)],
   [("a").toList, ("b").toList], true, true, false, false, 100, 12,
   PRESERVE_FILES, PRESERVE_WORDS⟩

/-- Witness for C9: in the concrete run, the changed file is written and
loses its cache sibling while the unchanged file keeps its cache sibling. -/
theorem claim9_witness :
    Ev.write (("a").toList) ∈ (runModel c9Input).evs
    ∧ (("b").toList) ∈ (runModel c9Input).rpycs
    ∧ (("a").toList) ∉ (runModel c9Input).rpycs := by
  have h := claim9_frame_condition c9Input (by decide) (by decide)
  obtain ⟨ta, hEa, _, hwa, _, hca⟩ := h.1 (("a").toList) c9ContentA (by decide)
  obtain ⟨tb, hEb, _, _, _, hcb⟩ := h.1 (("b").toList) c9ContentB (by decide)
  have hEa2 : (rpyFileTextE (charsOptOf c9Input) c9Input.preserveWords c9Input.threshold
      (c9Input.preserveFiles.contains (("a").toList)) c9Input.batchSize c9ContentA).toOption =
      some (("old \"s1\"\nnew \"s1  |  x\"\n").toList) := by decide
  rw [hEa] at hEa2
  have hta : ta = ("old \"s1\"\nnew \"s1  |  x\"\n").toList := by
    simpa [Except.toOption] using hEa2
  have hEb2 : (rpyFileTextE (charsOptOf c9Input) c9Input.preserveWords c9Input.threshold
      (c9Input.preserveFiles.contains (("b").toList)) c9Input.batchSize c9ContentB).toOption =
      some c9ContentB := by decide
  rw [hEb] at hEb2
  have htb : tb = c9ContentB := by
    simpa [Except.toOption] using hEb2
  refine ⟨hwa.mpr ?_, ?_, ?_⟩
  · rw [hta]
    decide
  · exact hcb.mpr ⟨by decide, htb⟩
  · intro hmem
    have hc := (hca.mp hmem).2
    rw [hta] at hc
    exact absurd hc (by decide)

/-- C10 (confirmed): every isolated percent sign is doubled, not only a
unique one: splitting the translation at any isolated percent, the two sides
are normalised independently and the percent becomes `%%`; characters other
than isolated percents are unchanged (a percent-free text is fixed), and the
entry construction applies exactly this map to the translation. -/
theorem claim10_percent_doubling_all :
    (∀ a b : Text, a.getLast? ≠ some '%' → b.head? ≠ some '%' →
      percentSub (a ++ '%' :: b) = percentSub a ++ '%' :: '%' :: percentSub b)
    ∧ percentSub (("a% b%").toList) = ("a%% b%%").toList
    ∧ (∀ s : Text, '%' ∉ s → percentSub s = s)
    ∧ (∀ m : RawMatch, (mkTranslationMatch m).dst = percentSub m.dst) :=
  ⟨fun a b ha hb => percentSub_append_isolated ha hb, by decide,
   fun _ h => percentSub_of_not_mem h, fun _ => rfl⟩

/-- Witness for C10. -/
theorem claim10_witness :
    percentSub ((("ab").toList) ++ '%' :: (("cd%e").toList)) =
      percentSub (("ab").toList) ++ '%' :: '%' :: percentSub (("cd%e").toList) :=
  claim10_percent_doubling_all.1 (("ab").toList) (("cd%e").toList) (by decide) (by decide)

end Rptl
